import Mathlib

/-!
Shallow embedding of the notebook `2_clustering/gnn_cluster.ipynb`.

Torch vectors are modelled as lists of reals, tensors of shape (n, d) as
lists of vectors or as functions from a node index to a vector.  Each
notebook function is translated into a Lean definition of the same name
where the name is legal in Lean.  The two helpers imported from
`gnn_utils` (the `TrackML_Dataset` feature layout and `score_event`) are
not part of the repository sources; they are modelled from the spec and
marked as such in their doc comments.
-/

open Classical

/-- Dot product of two vectors: the action of one row of a torch `nn.Linear`
weight matrix on the input. -/
noncomputable def dot (w x : List ℝ) : ℝ := (List.zipWith (fun a b => a * b) w x).sum

/-- Parameters of one `nn.Linear` layer: a weight matrix given as a list of
rows, and a bias vector with one entry per row. -/
structure Layer where
  W : List (List ℝ)
  b : List ℝ

/-- Forward pass of `nn.Linear`: one output coordinate per (row, bias) pair,
y = W x + b. -/
noncomputable def applyLayer (l : Layer) (x : List ℝ) : List ℝ :=
  List.zipWith (fun row bi => dot row x + bi) l.W l.b

/-- Elementwise ReLU, `nn.ReLU`. -/
noncomputable def reluVec (x : List ℝ) : List ℝ := x.map (fun t => max t 0)

/-- Sigmoid on a scalar, `nn.Sigmoid`. -/
noncomputable def sigmoid (t : ℝ) : ℝ := 1 / (1 + Real.exp (-t))

/-- Elementwise sigmoid. -/
noncomputable def sigmoidVec (x : List ℝ) : List ℝ := x.map sigmoid

/-- The layer list built by `MLP_Kernel_DGL.__init__`: a first layer (fed the
concatenated pair of node feature vectors), `nb_layer - 1` further hidden
layers, and a final output layer. -/
def mkKernelLayers (l1 : Layer) (hidden : List Layer) (lout : Layer) : List Layer :=
  l1 :: hidden ++ [lout]

/-- The edge function `MLP_Kernel_DGL.mlp`, applied by `apply_edges`:
concatenate the source and destination node features, run all but the last
layer with ReLU activation, run the last layer, then sigmoid.  The result is
the value stored in edge field `e`. -/
noncomputable def kernelMLP (layers : List Layer) (src dst : List ℝ) : List ℝ :=
  let e0 := src ++ dst
  let h := layers.dropLast.foldl (fun v l => reluVec (applyLayer l v)) e0
  sigmoidVec (applyLayer (layers.getLastD ⟨[], []⟩) h)

/-- A DGL graph: a number of nodes and a list of directed
(source, destination) edges. -/
structure Graph where
  numNodes : ℕ
  edges : List (ℕ × ℕ)

/-- Message builder `dgl.function.u_mul_e(feat, e, msg)`: the message on an edge is the
scalar edge datum `e` times the source node's feature vector (the edge datum
has feature dimension 1 and broadcasts over the node feature dimension). -/
noncomputable def u_mul_e_msg (x : ℕ → List ℝ) (ew : ℕ × ℕ → ℝ) (e : ℕ × ℕ) : List ℝ :=
  (x e.1).map (fun t => ew e * t)

/-- Sum of a list of d-dimensional vectors, coordinatewise. -/
noncomputable def vsum (d : ℕ) (vs : List (List ℝ)) : List ℝ :=
  vs.foldr (fun a s => List.zipWith (fun u v => u + v) a s) (List.replicate d 0)

/-- Aggregation `g.update_all` with message `u_mul_e` and reduce
`sum('msg','agg_msg')`: node i receives the sum of the messages carried by
its incoming edges. -/
noncomputable def updateAllSum (d : ℕ) (g : Graph) (x : ℕ → List ℝ) (ew : ℕ × ℕ → ℝ)
    (i : ℕ) : List ℝ :=
  vsum d ((g.edges.filter (fun e => e.2 == i)).map (u_mul_e_msg x ew))

/-- Parameters of one `GNN_Layer`: the edge-weighting kernel's layers, an
optional batch-normalization transform (present exactly when `apply_norm`
is true; `nn.BatchNorm1d` itself is a torch primitive and is modelled as an
opaque transform of the feature table), and the `fc` linear layer. -/
structure GNN_Layer where
  kernel : List Layer
  bn : Option ((ℕ → List ℝ) → (ℕ → List ℝ))
  fcW : List (List ℝ)
  fcB : List ℝ

/-- The features the layer works on: the input features after batch
normalization when normalization is enabled, the raw input features
otherwise. -/
def normFeat (L : GNN_Layer) (features : ℕ → List ℝ) : ℕ → List ℝ :=
  match L.bn with
  | some f => f features
  | none => features

/-- The scalar edge weight stored in edge field `e` (the kernel has
`nb_output = 1`, so the stored vector has one coordinate). -/
noncomputable def edgeWeight (layers : List Layer) (src dst : List ℝ) : ℝ :=
  (kernelMLP layers src dst).getD 0 0

/-- Forward pass `GNN_Layer.forward`: optionally batch-normalize, write the features to
`g.ndata`, compute the per-edge weights with the kernel, aggregate weighted
messages with `update_all(u_mul_e, sum)`, concatenate each node's features
with its aggregated message, and apply the `fc` layer followed by ReLU. -/
noncomputable def GNN_Layer.forward (L : GNN_Layer) (d : ℕ) (g : Graph)
    (features : ℕ → List ℝ) : ℕ → List ℝ :=
  let x := normFeat L features
  let ew : ℕ × ℕ → ℝ := fun e => edgeWeight L.kernel (x e.1) (x e.2)
  fun i => reluVec (applyLayer ⟨L.fcW, L.fcB⟩ (x i ++ updateAllSum d g x ew i))

/-- Distance `torch.nn.functional.pairwise_distance` with p = 2: the Euclidean
distance between two vectors. -/
noncomputable def pairwise_distance (u v : List ℝ) : ℝ :=
  Real.sqrt ((List.zipWith (fun a b => (a - b) ^ 2) u v).sum)

/-- Loss `torch.nn.functional.hinge_embedding_loss` with reduction none on one
element: the prediction itself when the target is 1, and
max(0, margin - prediction) otherwise (torch's elementwise `where` on the
target being 1).  The default margin is 1. -/
noncomputable def hinge_embedding_loss (margin x y : ℝ) : ℝ :=
  if y = 1 then x else max 0 (margin - x)

/-- The three edge fields returned by `get_emb_for_loss`. -/
structure EmbLossOut where
  loss : ℝ
  pred_dist : ℝ
  true_dist : ℝ

/-- The DGL edge function `get_emb_for_loss` used for the training loss:
the predicted distance is the pairwise distance between the two endpoint
embeddings, the hinge target is `truth * 2 - 1`, and the per-edge loss is
the hinge embedding loss of the pair. -/
noncomputable def get_emb_for_loss (src dst : List ℝ) (truth : ℝ) : EmbLossOut :=
  let pd := pairwise_distance src dst
  let td := truth * 2 - 1
  ⟨hinge_embedding_loss 1 pd td, pd, td⟩

/-- Accuracy proxy `score_dist_accuracy`: round the predicted distances, set every nonzero
rounded value to 1, flip with `1 - pred`, compare elementwise with the truth
vector, and return the number of agreements divided by the length of the
truth vector. -/
noncomputable def score_dist_accuracy (pred truth : List ℝ) : ℝ :=
  let p1 := pred.map (fun t => ((round t : ℤ) : ℝ))
  let p2 := p1.map (fun t => if t ≠ 0 then 1 else t)
  let p3 := p2.map (fun t => 1 - t)
  let correct := List.zipWith (fun a b => if a = b then (1 : ℝ) else 0) p3 truth
  correct.sum / truth.length

/-- Indicator of one (prediction, truth) pair agreeing in the sense of
`score_dist_accuracy`: the predicted distance rounds to zero exactly when
the truth label is 1. -/
noncomputable def pairInd (p t : ℝ) : ℝ :=
  if ((round p : ℤ) = 0 ↔ t = 1) then 1 else 0

/-- A hit as described by the spec and consumed by the evaluation loop. -/
structure Hit where
  xyz : List ℝ
  emb : List ℝ
  pid : ℕ
  weight : ℝ

/-- Modelled from the spec: `gnn_utils.TrackML_Dataset` is not in the
repository sources; per the spec a hit carries 3D coordinates, a particle
id and a precomputed embedding, and the input graph's node feature vector
is the xyz coordinates followed by the precomputed embedding. -/
def nodeFeat (h : Hit) : List ℝ := h.xyz ++ h.emb

/-- The per-sample collections accumulated by the evaluation loop. -/
structure EvalOut where
  pid : List (List ℕ)
  origXyz : List (List (List ℝ))
  embMetric : List (List (List ℝ))
  weight : List (List ℝ)
  embGnn : List (List (List ℝ))

/-- The evaluation loop over the dataloader: for each sample it records the
`pid` node field, the first three feature columns, the remaining feature
columns, the `weight` node field, and the GNN output embedding `net(g_input)`
(the trained network is abstracted as a function from a sample to its
per-node output embedding). -/
def evalLoop (net : List Hit → List (List ℝ)) (samples : List (List Hit)) : EvalOut :=
  ⟨samples.map (fun s => s.map Hit.pid),
   samples.map (fun s => s.map (fun h => (nodeFeat h).take 3)),
   samples.map (fun s => s.map (fun h => (nodeFeat h).drop 3)),
   samples.map (fun s => s.map Hit.weight),
   samples.map net⟩

/-- The sklearn DBSCAN configuration built by `c = DBSCAN(eps=.24,
min_samples=3)`. -/
structure DBSCANModel where
  eps : ℝ
  min_samples : ℕ

/-- The notebook's DBSCAN instance. -/
noncomputable def c : DBSCANModel := ⟨0.24, 3⟩

/-- Clustering entry `get_clusters`: run `c.fit_predict` on an embedding.  The sklearn DBSCAN
algorithm itself is a library primitive and is abstracted as a function from
(eps, min_samples, embedding) to per-point integer labels. -/
noncomputable def get_clusters (dbscanFn : ℝ → ℕ → List (List ℝ) → List ℤ)
    (embedding : List (List ℝ)) : List ℤ :=
  dbscanFn c.eps c.min_samples embedding

/-- One row of the `truth` pandas table: particle_id, hit_id, weight. -/
structure TruthRow where
  particle_id : ℕ
  hit_id : ℕ
  weight : ℝ

/-- One row of the `submission` pandas table: hit_id, track_id. -/
structure SubRow where
  hit_id : ℕ
  track_id : ℤ

/-- The `truth` table of one sample: `hit_id` is `np.arange(n)` and row i
carries the i-th particle id and hit weight. -/
noncomputable def truthTable (pid : List ℕ) (w : List ℝ) (n : ℕ) : List TruthRow :=
  (List.range n).map (fun i => ⟨pid.getD i 0, i, w.getD i 0⟩)

/-- The `submission` table of one sample: `hit_id` is `np.arange(n)` and row
i carries the i-th DBSCAN cluster label as `track_id`. -/
def submissionTable (clusters : List ℤ) (n : ℕ) : List SubRow :=
  (List.range n).map (fun i => ⟨i, clusters.getD i 0⟩)

/-- One hit after joining the two tables on `hit_id`: its predicted track,
its true particle, and its weight. -/
structure HitInfo where
  track : ℤ
  particle : ℕ
  weight : ℝ

/-- Join the truth and submission tables on `hit_id`. -/
noncomputable def joinTables (truth : List TruthRow) (sub : List SubRow) : List HitInfo :=
  truth.filterMap (fun tr =>
    match sub.find? (fun s => s.hit_id == tr.hit_id) with
    | some s => some ⟨s.track_id, tr.particle_id, tr.weight⟩
    | none => none)

/-- Number of hits in predicted track t. -/
noncomputable def nTrack (hits : List HitInfo) (t : ℤ) : ℕ :=
  hits.countP (fun h => h.track == t)

/-- Number of hits of true particle p. -/
noncomputable def nPart (hits : List HitInfo) (p : ℕ) : ℕ :=
  hits.countP (fun h => h.particle == p)

/-- Number of hits both in predicted track t and of true particle p. -/
noncomputable def nBoth (hits : List HitInfo) (t : ℤ) (p : ℕ) : ℕ :=
  hits.countP (fun h => h.track == t && h.particle == p)

/-- Double-majority test for one hit: its (track, particle) pair accounts
for a strict majority of the track's hits and a strict majority of the
particle's hits. -/
noncomputable def matchedB (hits : List HitInfo) (h : HitInfo) : Bool :=
  decide (nTrack hits h.track < 2 * nBoth hits h.track h.particle) &&
  decide (nPart hits h.particle < 2 * nBoth hits h.track h.particle)

/-- Credit assigned to one predicted cluster: the summed weight of its hits
whose (track, particle) pair passes the double-majority test. -/
noncomputable def clusterCredit (hits : List HitInfo) (t : ℤ) : ℝ :=
  ((hits.filter (fun h => h.track == t)).map
    (fun h => if matchedB hits h then h.weight else 0)).sum

/-- Modelled from the spec: `score_event` comes from `gnn_utils`, which is
not in the repository sources.  Per the spec it is the TrackML competition
metric: each predicted cluster is rewarded only when it both dominates and
is dominated by the hits of a single true particle, and the reward is the
weight of the agreeing hits.  The event score sums the credit of the
distinct predicted clusters. -/
noncomputable def score_event (truth : List TruthRow) (sub : List SubRow) : ℝ :=
  let hits := joinTables truth sub
  (((hits.map HitInfo.track).dedup).map (clusterCredit hits)).sum

/-- The body of the final scoring loop for one sample: cluster the GNN
embedding, build the two pandas tables over `np.arange(len(clusters))`, and
score the event. -/
noncomputable def sampleScore (dbscanFn : ℝ → ℕ → List (List ℝ) → List ℤ)
    (emb : List (List ℝ)) (pid : List ℕ) (w : List ℝ) : ℝ :=
  let clusters := get_clusters dbscanFn emb
  score_event (truthTable pid w clusters.length) (submissionTable clusters clusters.length)

/-- The final scoring loop: accumulate `score_event` over the first 20
samples and divide by 20. -/
noncomputable def finalScore (dbscanFn : ℝ → ℕ → List (List ℝ) → List ℤ)
    (out : EvalOut) : ℝ :=
  ((List.range 20).foldl (fun acc i =>
      acc + sampleScore dbscanFn (out.embGnn.getD i []) (out.pid.getD i [])
        (out.weight.getD i [])) 0) / 20

/-- A file-system operation performed by a notebook cell. -/
inductive FileOp where
  | read : String → FileOp
  | write : String → FileOp
deriving DecidableEq

/-- File operations of the data-loading stage (cell 3): one pickle read. -/
def loadStageOps : List FileOp := [FileOp.read "tracks.pickle"]

/-- File operations of the training stage (cells 19 to 28): none; they work
on the in-memory samples. -/
def trainStageOps : List FileOp := []

/-- File operations of the clustering stage (cells 30 to 34): none. -/
def clusterStageOps : List FileOp := []

/-- File operations of the scoring stage (cells 36 to 37): none. -/
def scoreStageOps : List FileOp := []

/-- File operations of the whole notebook, in execution order. -/
def notebookOps : List FileOp :=
  loadStageOps ++ trainStageOps ++ clusterStageOps ++ scoreStageOps

/-! ## Theorems -/

/-- C2: for every edge, the edge-weighting kernel stores in edge field `e`
the value sigmoid(f([x_i, x_j])): the concatenated source and destination
features pass through the hidden linear layers with ReLU activations, then
the final linear layer, then a sigmoid. -/
theorem kernelMLP_formula (l1 lout : Layer) (hidden : List Layer) (src dst : List ℝ) :
    kernelMLP (mkKernelLayers l1 hidden lout) src dst =
      sigmoidVec (applyLayer lout
        ((l1 :: hidden).foldl (fun v l => reluVec (applyLayer l v)) (src ++ dst))) := by
  unfold kernelMLP mkKernelLayers
  have h1 : (l1 :: hidden ++ [lout]).dropLast = l1 :: hidden := by
    rw [show l1 :: hidden ++ [lout] = (l1 :: hidden) ++ [lout] from rfl]
    exact List.dropLast_concat
  have h2 : (l1 :: hidden ++ [lout]).getLastD ⟨[], []⟩ = lout := by
    rw [List.getLastD_eq_getLast?,
      show l1 :: hidden ++ [lout] = (l1 :: hidden) ++ [lout] from rfl,
      List.getLast?_concat]
    rfl
  rw [h1, h2]

/-- C9: every coordinate of the value stored in edge field `e` by the
kernel lies strictly between 0 and 1, for every setting of the kernel's
parameters, because the kernel's final operation is a sigmoid. -/
theorem kernelMLP_mem_Ioo (layers : List Layer) (src dst : List ℝ) (v : ℝ)
    (hv : v ∈ kernelMLP layers src dst) : 0 < v ∧ v < 1 := by
  unfold kernelMLP at hv
  simp only [sigmoidVec, List.mem_map] at hv
  obtain ⟨t, _, rfl⟩ := hv
  have hexp : 0 < Real.exp (-t) := Real.exp_pos _
  constructor
  · exact div_pos one_pos (by linarith)
  · rw [sigmoid, div_lt_one (by linarith)]
    linarith

/-- Witness for C9 at a concrete one-layer kernel and concrete features. -/
theorem kernelMLP_mem_Ioo_witness : 0 < sigmoid 0 ∧ sigmoid 0 < 1 :=
  kernelMLP_mem_Ioo [⟨[[1]], [0]⟩] [0] [] (sigmoid 0)
    (by simp [kernelMLP, sigmoidVec, applyLayer, dot])

/-- C8: the notebook performs exactly one file operation, the pickle read of
`tracks.pickle` in the loading stage, and it happens before every other
stage; the training, clustering and scoring stages perform no file
operations at all. -/
theorem notebook_file_ops_spec :
    notebookOps = [FileOp.read "tracks.pickle"] ∧
    notebookOps.count (FileOp.read "tracks.pickle") = 1 ∧
    trainStageOps = [] ∧ clusterStageOps = [] ∧ scoreStageOps = [] := by
  refine ⟨rfl, ?_, rfl, rfl, rfl⟩
  rfl

/-- C3: on an edge with endpoint embeddings `src`, `dst` and a 0/1 label,
`get_emb_for_loss` maps the label through `truth * 2 - 1` to a hinge target
in {-1, 1} and produces the Euclidean distance as the loss when the label
is 1, and max(0, 1 - distance) when the label is 0. -/
theorem get_emb_for_loss_spec (src dst : List ℝ) (truth : ℝ)
    (h : truth = 0 ∨ truth = 1) :
    (get_emb_for_loss src dst truth).true_dist = 2 * truth - 1 ∧
    (truth = 1 →
      (get_emb_for_loss src dst truth).true_dist = 1 ∧
      (get_emb_for_loss src dst truth).loss = pairwise_distance src dst) ∧
    (truth = 0 →
      (get_emb_for_loss src dst truth).true_dist = -1 ∧
      (get_emb_for_loss src dst truth).loss =
        max 0 (1 - pairwise_distance src dst)) := by
  unfold get_emb_for_loss hinge_embedding_loss
  refine ⟨by ring, ?_, ?_⟩
  · rintro rfl
    norm_num
  · rintro rfl
    norm_num

/-- Witness for C3 at label 1 and concrete embeddings. -/
theorem get_emb_for_loss_spec_witness :
    (get_emb_for_loss [0] [1] 1).true_dist = 2 * 1 - 1 ∧
    ((1 : ℝ) = 1 →
      (get_emb_for_loss [0] [1] 1).true_dist = 1 ∧
      (get_emb_for_loss [0] [1] 1).loss = pairwise_distance [0] [1]) ∧
    ((1 : ℝ) = 0 →
      (get_emb_for_loss [0] [1] 1).true_dist = -1 ∧
      (get_emb_for_loss [0] [1] 1).loss = max 0 (1 - pairwise_distance [0] [1])) :=
  get_emb_for_loss_spec [0] [1] 1 (Or.inr rfl)

/-- The elementwise comparison computed by `score_dist_accuracy` agrees with
the round-to-zero indicator `pairInd` whenever the truth labels are 0/1. -/
theorem score_acc_correct_eq (pred : List ℝ) : ∀ truth : List ℝ,
    (∀ t ∈ truth, t = 0 ∨ t = 1) →
    List.zipWith (fun a b => if a = b then (1 : ℝ) else 0)
      (((pred.map (fun t => ((round t : ℤ) : ℝ))).map
        (fun t => if t ≠ 0 then 1 else t)).map (fun t => 1 - t)) truth =
      List.zipWith pairInd pred truth := by
  induction pred with
  | nil => intro truth h; simp
  | cons p ps ih =>
    intro truth h
    cases truth with
    | nil => simp
    | cons t ts =>
      have ht : t = 0 ∨ t = 1 := h t (List.mem_cons_self t ts)
      have hts : ∀ u ∈ ts, u = 0 ∨ u = 1 := fun u hu => h u (List.mem_cons_of_mem t hu)
      simp only [List.map_cons, List.zipWith_cons_cons]
      rw [ih ts hts]
      congr 1
      unfold pairInd
      by_cases hr : (round p : ℤ) = 0
      · rw [hr]
        rcases ht with rfl | rfl <;> norm_num
      · have hc : ((round p : ℤ) : ℝ) ≠ 0 := by exact_mod_cast hr
        rw [if_pos hc]
        rcases ht with rfl | rfl <;> simp [hr]

/-- The indicator sum is nonnegative and bounded by its own length. -/
theorem ind_sum_bounds (pred : List ℝ) : ∀ truth : List ℝ,
    0 ≤ (List.zipWith pairInd pred truth).sum ∧
    (List.zipWith pairInd pred truth).sum ≤
      ((List.zipWith pairInd pred truth).length : ℝ) := by
  induction pred with
  | nil => intro truth; simp
  | cons p ps ih =>
    intro truth
    cases truth with
    | nil => simp
    | cons t ts =>
      obtain ⟨h1, h2⟩ := ih ts
      have hp : 0 ≤ pairInd p t ∧ pairInd p t ≤ 1 := by
        unfold pairInd
        by_cases hc : ((round p : ℤ) = 0 ↔ t = 1)
        · rw [if_pos hc]
          norm_num
        · rw [if_neg hc]
          norm_num
      simp only [List.zipWith_cons_cons, List.sum_cons, List.length_cons]
      push_cast
      constructor <;> linarith [hp.1, hp.2]

/-- C10: for a non-empty 0/1 truth vector of the same length as the
prediction vector, `score_dist_accuracy` lies in [0, 1] and equals the
fraction of positions where the predicted distance rounds to zero exactly
when the truth label is 1. -/
theorem score_dist_accuracy_spec (pred truth : List ℝ)
    (hlen : pred.length = truth.length) (hne : truth ≠ [])
    (h01 : ∀ t ∈ truth, t = 0 ∨ t = 1) :
    0 ≤ score_dist_accuracy pred truth ∧ score_dist_accuracy pred truth ≤ 1 ∧
    score_dist_accuracy pred truth =
      (List.zipWith pairInd pred truth).sum / truth.length := by
  have hn : 0 < (truth.length : ℝ) := by exact_mod_cast List.length_pos.mpr hne
  have hdef : score_dist_accuracy pred truth =
      (List.zipWith pairInd pred truth).sum / truth.length := by
    show (List.zipWith (fun a b => if a = b then (1 : ℝ) else 0)
        (((pred.map (fun t => ((round t : ℤ) : ℝ))).map
          (fun t => if t ≠ 0 then 1 else t)).map (fun t => 1 - t)) truth).sum /
        truth.length = _
    rw [score_acc_correct_eq pred truth h01]
  obtain ⟨hs0, hs1⟩ := ind_sum_bounds pred truth
  have hlen2 : (List.zipWith pairInd pred truth).length = truth.length := by
    rw [List.length_zipWith, hlen, Nat.min_self]
  refine ⟨?_, ?_, hdef⟩
  · rw [hdef]
    exact div_nonneg hs0 (le_of_lt hn)
  · rw [hdef, div_le_one hn]
    calc (List.zipWith pairInd pred truth).sum
        ≤ ((List.zipWith pairInd pred truth).length : ℝ) := hs1
      _ = (truth.length : ℝ) := by rw [hlen2]

/-- Scalar multiplication of a message distributes over coordinate access. -/
theorem map_mul_getD (w : ℝ) (l : List ℝ) : ∀ k : ℕ,
    (l.map (fun t => w * t)).getD k 0 = w * l.getD k 0 := by
  induction l with
  | nil => intro k; simp
  | cons a as ih =>
    intro k
    cases k with
    | zero => rfl
    | succ n => simpa using ih n

/-- Coordinate access distributes over the vector sum of two equal-length
vectors. -/
theorem zipWith_add_getD : ∀ a b : List ℝ, a.length = b.length → ∀ k : ℕ,
    (List.zipWith (fun u v => u + v) a b).getD k 0 = a.getD k 0 + b.getD k 0 := by
  intro a
  induction a with
  | nil =>
    intro b hb k
    cases b with
    | nil => simp
    | cons y ys => simp at hb
  | cons x xs ih =>
    intro b hb k
    cases b with
    | nil => simp at hb
    | cons y ys =>
      cases k with
      | zero => rfl
      | succ n => simpa using ih ys (by simpa using hb) n

/-- Unfolding `vsum` on a cons cell. -/
theorem vsum_cons (d : ℕ) (v : List ℝ) (vt : List (List ℝ)) :
    vsum d (v :: vt) = List.zipWith (fun u w => u + w) v (vsum d vt) := rfl

/-- The sum of a list of d-dimensional vectors is d-dimensional. -/
theorem vsum_length (d : ℕ) : ∀ vs : List (List ℝ), (∀ v ∈ vs, v.length = d) →
    (vsum d vs).length = d := by
  intro vs
  induction vs with
  | nil => intro h; simp [vsum]
  | cons v vt ih =>
    intro h
    have hv : v.length = d := h v (List.mem_cons_self v vt)
    have ht := ih (fun u hu => h u (List.mem_cons_of_mem v hu))
    rw [vsum_cons, List.length_zipWith, hv, ht]
    exact Nat.min_self d

/-- Each coordinate of `vsum` is the sum of the corresponding coordinates. -/
theorem vsum_getD (d : ℕ) : ∀ vs : List (List ℝ), (∀ v ∈ vs, v.length = d) →
    ∀ k : ℕ, (vsum d vs).getD k 0 = (vs.map (fun v => v.getD k 0)).sum := by
  intro vs
  induction vs with
  | nil =>
    intro h k
    show (List.replicate d (0 : ℝ)).getD k 0 = ([] : List ℝ).sum
    rcases Nat.lt_or_ge k d with hk | hk
    · rw [List.getD_eq_getElem _ _ (by simpa using hk)]
      simp
    · rw [List.getD_eq_getElem?_getD, List.getElem?_eq_none (by simpa using hk)]
      rfl
  | cons v vt ih =>
    intro h k
    have hv : v.length = d := h v (List.mem_cons_self v vt)
    have hvt : ∀ u ∈ vt, u.length = d := fun u hu => h u (List.mem_cons_of_mem v hu)
    rw [vsum_cons, zipWith_add_getD v (vsum d vt) (by rw [hv, vsum_length d vt hvt]) k,
      ih hvt k]
    simp

/-- Vector sum `vsum` written as the list of its coordinates. -/
theorem vsum_coords (d : ℕ) (vs : List (List ℝ)) (h : ∀ v ∈ vs, v.length = d) :
    vsum d vs = (List.range d).map (fun k => (vs.map (fun v => v.getD k 0)).sum) := by
  apply List.ext_getElem
  · rw [vsum_length d vs h, List.length_map, List.length_range]
  · intro n h1 h2
    rw [List.getElem_map, List.getElem_range]
    rw [← List.getD_eq_getElem (vsum d vs) 0 h1]
    exact vsum_getD d vs h n

/-- C1: one `GNN_Layer.forward` pass maps node i to ReLU(fc([x_i, z_i])),
where x is the input feature table after batch normalization when
normalization is enabled (and the raw input otherwise), and each coordinate
of z_i is the sum, over the incoming edges (j, i), of the scalar edge weight
times the corresponding coordinate of the neighbor feature x_j. -/
theorem GNN_Layer_forward_formula (L : GNN_Layer) (d : ℕ) (g : Graph)
    (features : ℕ → List ℝ) (i : ℕ)
    (hd : ∀ j, (normFeat L features j).length = d) :
    L.forward d g features i =
      reluVec (applyLayer ⟨L.fcW, L.fcB⟩ (normFeat L features i ++
        (List.range d).map (fun k =>
          ((g.edges.filter (fun e => e.2 == i)).map (fun e =>
            edgeWeight L.kernel (normFeat L features e.1) (normFeat L features e.2) *
              (normFeat L features e.1).getD k 0)).sum))) ∧
    (L.bn = none → normFeat L features = features) ∧
    (∀ f, L.bn = some f → normFeat L features = f features) := by
  refine ⟨?_, ?_, ?_⟩
  · have hz : updateAllSum d g (normFeat L features)
        (fun e => edgeWeight L.kernel (normFeat L features e.1) (normFeat L features e.2))
        i =
        (List.range d).map (fun k =>
          ((g.edges.filter (fun e => e.2 == i)).map (fun e =>
            edgeWeight L.kernel (normFeat L features e.1) (normFeat L features e.2) *
              (normFeat L features e.1).getD k 0)).sum) := by
      unfold updateAllSum
      rw [vsum_coords d _ ?hlen]
      case hlen =>
        intro v hv
        rw [List.mem_map] at hv
        obtain ⟨e, _, rfl⟩ := hv
        show ((normFeat L features e.1).map _).length = d
        rw [List.length_map]
        exact hd e.1
      apply List.map_congr_left
      intro k _
      rw [List.map_map]
      congr 1
      apply List.map_congr_left
      intro e _
      exact map_mul_getD _ _ k
    show reluVec (applyLayer ⟨L.fcW, L.fcB⟩ (normFeat L features i ++
        updateAllSum d g (normFeat L features)
          (fun e => edgeWeight L.kernel (normFeat L features e.1)
            (normFeat L features e.2)) i)) = _
    rw [hz]
  · intro h
    simp [normFeat, h]
  · intro f hf
    simp [normFeat, hf]

/-- Witness for C1 at a concrete layer with no normalization, one node and
no edges. -/
theorem GNN_Layer_forward_formula_witness :
    GNN_Layer.forward ⟨[], none, [[1, 1]], [0]⟩ 1 ⟨1, []⟩ (fun _ => [1]) 0 =
      reluVec (applyLayer ⟨[[1, 1]], [0]⟩
        (normFeat ⟨[], none, [[1, 1]], [0]⟩ (fun _ => [1]) 0 ++
        (List.range 1).map (fun k =>
          (((⟨1, []⟩ : Graph).edges.filter (fun e => e.2 == 0)).map (fun e =>
            edgeWeight [] (normFeat ⟨[], none, [[1, 1]], [0]⟩ (fun _ => [1]) e.1)
              (normFeat ⟨[], none, [[1, 1]], [0]⟩ (fun _ => [1]) e.2) *
              (normFeat ⟨[], none, [[1, 1]], [0]⟩ (fun _ => [1]) e.1).getD k 0)).sum))) ∧
    ((⟨[], none, [[1, 1]], [0]⟩ : GNN_Layer).bn = none →
      normFeat ⟨[], none, [[1, 1]], [0]⟩ (fun _ => [1]) = fun _ => [1]) ∧
    (∀ f, (⟨[], none, [[1, 1]], [0]⟩ : GNN_Layer).bn = some f →
      normFeat ⟨[], none, [[1, 1]], [0]⟩ (fun _ => [1]) = f (fun _ => [1])) :=
  GNN_Layer_forward_formula ⟨[], none, [[1, 1]], [0]⟩ 1 ⟨1, []⟩ (fun _ => [1]) 0
    (fun _ => rfl)

/-- C7: every hit carries 3D coordinates, a particle id and a precomputed
embedding; in the evaluation loop the first three feature columns are the
hit's xyz coordinates, the remaining columns are its precomputed
metric-learning embedding, and the particle ids and hit weights are
collected from the separate pid and weight node fields. -/
theorem evalLoop_feature_decomposition (net : List Hit → List (List ℝ))
    (samples : List (List Hit))
    (h3 : ∀ s ∈ samples, ∀ h ∈ s, h.xyz.length = 3) :
    (evalLoop net samples).origXyz = samples.map (fun s => s.map Hit.xyz) ∧
    (evalLoop net samples).embMetric = samples.map (fun s => s.map Hit.emb) ∧
    (evalLoop net samples).pid = samples.map (fun s => s.map Hit.pid) ∧
    (evalLoop net samples).weight = samples.map (fun s => s.map Hit.weight) ∧
    (evalLoop net samples).embGnn = samples.map net := by
  refine ⟨?_, ?_, rfl, rfl, rfl⟩
  · show samples.map (fun s => s.map (fun h => (nodeFeat h).take 3)) = _
    apply List.map_congr_left
    intro s hs
    apply List.map_congr_left
    intro h hh
    exact List.take_left' (h3 s hs h hh)
  · show samples.map (fun s => s.map (fun h => (nodeFeat h).drop 3)) = _
    apply List.map_congr_left
    intro s hs
    apply List.map_congr_left
    intro h hh
    exact List.drop_left' (h3 s hs h hh)

/-- Witness for C7 at one concrete one-hit sample. -/
theorem evalLoop_feature_decomposition_witness :
    (evalLoop (fun _ => []) [[(⟨[0, 0, 0], [1], 4, 2⟩ : Hit)]]).origXyz =
      [[[(0 : ℝ), 0, 0]]] ∧
    (evalLoop (fun _ => []) [[(⟨[0, 0, 0], [1], 4, 2⟩ : Hit)]]).embMetric =
      [[[(1 : ℝ)]]] ∧
    (evalLoop (fun _ => []) [[(⟨[0, 0, 0], [1], 4, 2⟩ : Hit)]]).pid = [[4]] ∧
    (evalLoop (fun _ => []) [[(⟨[0, 0, 0], [1], 4, 2⟩ : Hit)]]).weight =
      [[(2 : ℝ)]] ∧
    (evalLoop (fun _ => []) [[(⟨[0, 0, 0], [1], 4, 2⟩ : Hit)]]).embGnn = [[]] :=
  evalLoop_feature_decomposition (fun _ => []) [[(⟨[0, 0, 0], [1], 4, 2⟩ : Hit)]]
    (by
      intro s hs h hh
      simp only [List.mem_singleton] at hs
      subst hs
      simp only [List.mem_singleton] at hh
      subst hh
      rfl)

/-- C4: `get_clusters` runs DBSCAN with eps 0.24 and min_samples 3, and the
embedding column of the evaluation output that the scoring loop clusters for
sample i is the network output on sample i, not the xyz block or the
metric-learning block of the features. -/
theorem get_clusters_input_spec (dbscanFn : ℝ → ℕ → List (List ℝ) → List ℤ)
    (net : List Hit → List (List ℝ)) (samples : List (List Hit))
    (emb : List (List ℝ)) (i : ℕ) (hi : i < samples.length) :
    c.eps = 0.24 ∧ c.min_samples = 3 ∧
    get_clusters dbscanFn emb = dbscanFn 0.24 3 emb ∧
    (evalLoop net samples).embGnn.getD i [] = net (samples.getD i []) := by
  refine ⟨rfl, rfl, rfl, ?_⟩
  have h1 : i < (samples.map net).length := by simpa using hi
  show (samples.map net).getD i [] = net (samples.getD i [])
  rw [List.getD_eq_getElem _ _ h1, List.getElem_map, ← List.getD_eq_getElem _ _ hi]

/-- Witness for C4 at a concrete one-sample dataset. -/
theorem get_clusters_input_spec_witness :
    c.eps = 0.24 ∧ c.min_samples = 3 ∧
    get_clusters (fun _ _ _ => ([] : List ℤ)) [] = [] ∧
    (evalLoop (fun _ => ([] : List (List ℝ))) [([] : List Hit)]).embGnn.getD 0 [] =
      [] :=
  get_clusters_input_spec (fun _ _ _ => ([] : List ℤ))
    (fun _ => ([] : List (List ℝ))) [([] : List Hit)] [] 0 Nat.zero_lt_one

/-- Accumulating a function over a list with `foldl` and addition is the sum
of the mapped list. -/
theorem foldl_add_map (f : ℕ → ℝ) : ∀ (l : List ℕ) (a : ℝ),
    l.foldl (fun acc i => acc + f i) a = a + (l.map f).sum := by
  intro l
  induction l with
  | nil => intro a; simp
  | cons x xs ih =>
    intro a
    rw [List.foldl_cons, ih (a + f x), List.map_cons, List.sum_cons]
    ring

/-- C6: the final reported score is the arithmetic mean over the first 20
samples of `score_event` applied to the truth table built from the sample's
particle ids and hit weights and the submission table built from the DBSCAN
cluster labels, and `hit_id` enumerates the hits 0..n-1 identically in both
tables. -/
theorem finalScore_mean_spec (dbscanFn : ℝ → ℕ → List (List ℝ) → List ℤ)
    (out : EvalOut) :
    finalScore dbscanFn out =
      ((List.range 20).map (fun i =>
        score_event
          (truthTable (out.pid.getD i []) (out.weight.getD i [])
            (get_clusters dbscanFn (out.embGnn.getD i [])).length)
          (submissionTable (get_clusters dbscanFn (out.embGnn.getD i []))
            (get_clusters dbscanFn (out.embGnn.getD i [])).length))).sum / 20 ∧
    (∀ pid w n, (truthTable pid w n).map TruthRow.hit_id = List.range n) ∧
    (∀ cl n, (submissionTable cl n).map SubRow.hit_id = List.range n) := by
  refine ⟨?_, ?_, ?_⟩
  · unfold finalScore
    rw [foldl_add_map (fun i => sampleScore dbscanFn (out.embGnn.getD i [])
      (out.pid.getD i []) (out.weight.getD i [])) (List.range 20) 0, zero_add]
    rfl
  · intro pid w n
    unfold truthTable
    rw [List.map_map]
    exact (List.map_congr_left (fun a _ => rfl)).trans (List.map_id _)
  · intro cl n
    unfold submissionTable
    rw [List.map_map]
    exact (List.map_congr_left (fun a _ => rfl)).trans (List.map_id _)

/-- A real list with nonzero sum contains a nonzero element. -/
theorem exists_ne_zero_of_sum_ne_zero {l : List ℝ} (h : l.sum ≠ 0) :
    ∃ x ∈ l, x ≠ 0 := by
  by_contra hc
  push_neg at hc
  exact h (List.sum_eq_zero hc)

/-- C5: `score_event` sums per-cluster credits over the distinct predicted
clusters, and a predicted cluster receives nonzero credit only if the hits
of some single true particle both dominate and are dominated by the hits of
that cluster (the double-majority criterion). -/
theorem score_event_double_majority (truth : List TruthRow) (sub : List SubRow)
    (t : ℤ) (h : clusterCredit (joinTables truth sub) t ≠ 0) :
    score_event truth sub =
      (((joinTables truth sub).map HitInfo.track).dedup.map
        (clusterCredit (joinTables truth sub))).sum ∧
    ∃ p : ℕ,
      nTrack (joinTables truth sub) t < 2 * nBoth (joinTables truth sub) t p ∧
      nPart (joinTables truth sub) p < 2 * nBoth (joinTables truth sub) t p := by
  refine ⟨rfl, ?_⟩
  unfold clusterCredit at h
  obtain ⟨x, hx, hxe⟩ := exists_ne_zero_of_sum_ne_zero h
  rw [List.mem_map] at hx
  obtain ⟨hit, hmem, rfl⟩ := hx
  have hmatched : matchedB (joinTables truth sub) hit = true := by
    by_contra hm
    rw [Bool.not_eq_true] at hm
    rw [hm] at hxe
    simp at hxe
  have htrack : hit.track = t := by
    have hf := List.mem_filter.mp hmem
    simpa using hf.2
  unfold matchedB at hmatched
  rw [Bool.and_eq_true, decide_eq_true_eq, decide_eq_true_eq] at hmatched
  refine ⟨hit.particle, ?_, ?_⟩
  · rw [← htrack]
    exact hmatched.1
  · rw [← htrack]
    exact hmatched.2

/-- Witness for C5 at a one-hit event where the single cluster matches the
single particle. -/
theorem score_event_double_majority_witness :
    score_event [⟨5, 0, 1⟩] [⟨0, 7⟩] =
      (((joinTables [⟨5, 0, 1⟩] [⟨0, 7⟩]).map HitInfo.track).dedup.map
        (clusterCredit (joinTables [⟨5, 0, 1⟩] [⟨0, 7⟩]))).sum ∧
    ∃ p : ℕ,
      nTrack (joinTables [⟨5, 0, 1⟩] [⟨0, 7⟩]) 7 <
        2 * nBoth (joinTables [⟨5, 0, 1⟩] [⟨0, 7⟩]) 7 p ∧
      nPart (joinTables [⟨5, 0, 1⟩] [⟨0, 7⟩]) p <
        2 * nBoth (joinTables [⟨5, 0, 1⟩] [⟨0, 7⟩]) 7 p :=
  score_event_double_majority [⟨5, 0, 1⟩] [⟨0, 7⟩] 7
    (by
      rw [show clusterCredit (joinTables [⟨5, 0, 1⟩] [⟨0, 7⟩]) 7 =
        ([1] : List ℝ).sum from rfl]
      norm_num)

/-- Witness for C10 at concrete prediction and truth vectors. -/
theorem score_dist_accuracy_spec_witness :
    0 ≤ score_dist_accuracy [2, 0] [0, 1] ∧
    score_dist_accuracy [2, 0] [0, 1] ≤ 1 ∧
    score_dist_accuracy [2, 0] [0, 1] =
      (List.zipWith pairInd [2, 0] [0, 1]).sum / ([(0 : ℝ), 1].length) :=
  score_dist_accuracy_spec [2, 0] [0, 1] rfl (by simp)
    (by intro t ht; simp at ht; tauto)
